import Mathlib

/-!
Verification of the lookup-table layer of the `lir` halo2 backend.

The development shallowly embeds the two source files
`src/backend/halo2/table.rs` and `src/backend/halo2/vm_circuit/binop.rs`.
Machine integers (`u8`) are modelled as `Nat`; the fallible `u8`
operations of a Rust debug build (overflow aborts) are modelled with
`Option`, so a run of `generate_binop_table` that completes normally is
exactly a run returning `some`.  The external constraint-system
collaborator (`region.assign_fixed`) is modelled by an abstract failure
oracle together with an explicit log of the cell writes it accepted.
-/

set_option maxHeartbeats 1000000

namespace Lir

/-- The binary operation tags of `table.rs` (`pub enum BinOpTag`), in
declaration order. -/
inductive BinOpTag where
  | ADD | MUL | SUB | DIV | MOD | LT | GT | LE | GE | SHL | SHR | AND | XOR | OR | EQ
  deriving DecidableEq, Fintype, Repr

/-- Discriminant codes of `BinOpTag` (`ADD = 1`, then successor values);
this is the value Rust's `op as u8` cast produces. -/
def BinOpTag.code : BinOpTag → Nat
  | .ADD => 1 | .MUL => 2 | .SUB => 3 | .DIV => 4 | .MOD => 5
  | .LT => 6 | .GT => 7 | .LE => 8 | .GE => 9 | .SHL => 10
  | .SHR => 11 | .AND => 12 | .XOR => 13 | .OR => 14 | .EQ => 15

/-- `BinOpTag::iter()` (strum's `EnumIter`): every tag, in declaration
order. -/
def binOpTags : List BinOpTag :=
  [.ADD, .MUL, .SUB, .DIV, .MOD, .LT, .GT, .LE, .GE, .SHL, .SHR, .AND, .XOR, .OR, .EQ]

/-- The unary operation tags of `table.rs` (`pub enum UnaryOpTag`). -/
inductive UnaryOpTag where
  | PLUS | MINUS | NEG
  deriving DecidableEq, Fintype, Repr

/-- Discriminant codes of `UnaryOpTag` (`PLUS = 1`, then successors). -/
def UnaryOpTag.code : UnaryOpTag → Nat
  | .PLUS => 1 | .MINUS => 2 | .NEG => 3

/-- Modelled from the spec: the `impl_expr!` conversion invoked in
`table.rs` is defined outside the two files under `src/`; per §4.2 of the
spec, "Each tag converts to a field/expression value equal to its code". -/
def BinOpTag.exprValue (t : BinOpTag) : Nat := t.code

/-- Modelled from the spec: the `impl_expr!` conversion for `UnaryOpTag`,
equal to the tag's code (spec §4.2). -/
def UnaryOpTag.exprValue (t : UnaryOpTag) : Nat := t.code

/-- One `[u8; 4]` record emitted by `generate_binop_table`:
`[tag, lhs, rhs, res]` (the source's `simple_record[0..3]`). -/
structure BinRow where
  tag : Nat
  lhs : Nat
  rhs : Nat
  res : Nat
  deriving DecidableEq, Repr

/-- Checked `u8` addition: a Rust debug build aborts on overflow. -/
def u8Add? (x y : Nat) : Option Nat :=
  if x + y < 256 then some (x + y) else none

/-- Checked `u8` multiplication: a Rust debug build aborts on overflow. -/
def u8Mul? (x y : Nat) : Option Nat :=
  if x * y < 256 then some (x * y) else none

/-- Checked `u8` left shift `x << s`: a shift amount of 8 or more aborts;
bits shifted above bit 7 are discarded. -/
def u8Shl? (x s : Nat) : Option Nat :=
  if s < 8 then some ((x <<< s) % 256) else none

/-- The `match op` expression of `generate_binop_table` computing
`simple_record[3]`, with the debug-build overflow aborts of `x + y` and
`x * y` made explicit.  The `SHL` and `SHR` arms are commented out in the
source, so those two tags fall through to the catch-all `_ => 0` arm. -/
def binOpResult? (op : BinOpTag) (x y : Nat) : Option Nat :=
  match op with
  | .ADD => u8Add? x y
  | .MUL => u8Mul? x y
  | .SUB => some (if y ≤ x then x - y else 0)
  | .DIV => some (if y ≠ 0 then x / y else 0)
  | .LT => some (if x < y then 1 else 0)
  | .GT => some (if y < x then 1 else 0)
  | .LE => some (if x ≤ y then 1 else 0)
  | .GE => some (if y ≤ x then 1 else 0)
  | .AND => some (Nat.land x y)
  | .XOR => some (Nat.xor x y)
  | .OR => some (Nat.lor x y)
  | .EQ => some (if x = y then 1 else 0)
  | .MOD => some (if y ≠ 0 then x % y else 0)
  | .SHL => some 0
  | .SHR => some 0

/-- The value `binOpResult?` yields on inputs where no arithmetic aborts. -/
def binOpResult (op : BinOpTag) (x y : Nat) : Nat :=
  match op with
  | .ADD => x + y
  | .MUL => x * y
  | .SUB => if y ≤ x then x - y else 0
  | .DIV => if y ≠ 0 then x / y else 0
  | .LT => if x < y then 1 else 0
  | .GT => if y < x then 1 else 0
  | .LE => if x ≤ y then 1 else 0
  | .GE => if y ≤ x then 1 else 0
  | .AND => Nat.land x y
  | .XOR => Nat.xor x y
  | .OR => Nat.lor x y
  | .EQ => if x = y then 1 else 0
  | .MOD => if y ≠ 0 then x % y else 0
  | .SHL => 0
  | .SHR => 0

/-- Sequence an option-valued map over a list; any failure aborts the
whole traversal. -/
def optMap {α β : Type} (f : α → Option β) : List α → Option (List β)
  | [] => some []
  | a :: as =>
    match f a, optMap f as with
    | some b, some bs => some (b :: bs)
    | _, _ => none

/-- Sequence an option-valued block generator over a list, concatenating
the generated blocks; any failure aborts the whole traversal. -/
def optFlatMap {α β : Type} (f : α → Option (List β)) : List α → Option (List β)
  | [] => some []
  | a :: as =>
    match f a, optFlatMap f as with
    | some b, some bs => some (b ++ bs)
    | _, _ => none

/-- `generate_binop_table` of `binop.rs` under Rust debug-build semantics:
`none` models an arithmetic abort, `some` the returned `Vec<[u8; 4]>`.
Mirrors `let r = 1 << range;` followed by the nested `x` / `y` / tag loops,
each row being `[op as u8, x, y, result]`. -/
def generate_binop_table? (range : Nat) : Option (List BinRow) :=
  match u8Shl? 1 range with
  | none => none
  | some r =>
    optFlatMap (fun x =>
      optFlatMap (fun y =>
        optMap (fun op => (binOpResult? op x y).map
          (fun res => ⟨op.code, x, y, res⟩)) binOpTags)
        (List.range r))
      (List.range r)

/-- The row list `generate_binop_table range` returns when no arithmetic
aborts. -/
def binopTableVal (range : Nat) : List BinRow :=
  (List.range (2 ^ range)).flatMap (fun x =>
    (List.range (2 ^ range)).flatMap (fun y =>
      binOpTags.map (fun op => ⟨op.code, x, y, binOpResult op x y⟩)))

/-- The four fixed columns owned by `BinaryOperationTable` in `table.rs`. -/
inductive BinCol where
  | tag | lhs | rhs | res
  deriving DecidableEq, Repr

/-- One accepted fixed-cell assignment: `((column, row offset), value)`. -/
abbrev CellWrite : Type := (BinCol × Nat) × Nat

/-- Abstract model of `region.assign_fixed` for the binary-operation
table: the external collaborator's oracle `fail` decides whether the write
errors (the value is `F::from(v[i] as u64)`, injective on the byte-sized
values involved, kept as `Nat`); a successful write is appended to the
region's log. -/
def assignFixed {ε : Type} (fail : BinCol → Nat → Nat → Option ε)
    (st : List CellWrite) (c : BinCol) (off v : Nat) :
    Except ε (List CellWrite) :=
  match fail c off v with
  | some e => .error e
  | none => .ok (st ++ [((c, off), v)])

/-- The `for (offset, v) in precomputed.iter().enumerate()` loop body of
`BinaryOperationTable::load`: assign `tag`, `lhs`, `rhs`, `res` of row `v`
at row `offset`, each followed by the `?` operator (first error returns
immediately). -/
def loadRows {ε : Type} (fail : BinCol → Nat → Nat → Option ε)
    (st : List CellWrite) (offset : Nat) :
    List BinRow → Except ε (List CellWrite)
  | [] => .ok st
  | v :: rest =>
    match assignFixed fail st .tag offset v.tag with
    | .error e => .error e
    | .ok st1 =>
      match assignFixed fail st1 .lhs offset v.lhs with
      | .error e => .error e
      | .ok st2 =>
        match assignFixed fail st2 .rhs offset v.rhs with
        | .error e => .error e
        | .ok st3 =>
          match assignFixed fail st3 .res offset v.res with
          | .error e => .error e
          | .ok st4 => loadRows fail st4 (offset + 1) rest

/-- `BinaryOperationTable::load` of `table.rs`: iterate the precomputed
rows from offset `0`, starting from an empty region log. -/
def BinaryOperationTable.load {ε : Type} (fail : BinCol → Nat → Nat → Option ε)
    (precomputed : List BinRow) : Except ε (List CellWrite) :=
  loadRows fail [] 0 precomputed

/-- `BinOpConfig::load_binop_table` of `binop.rs`: generate the table with
the hardcoded range `4` and load it; the outer `Option` is the generation
abort (never hit at range 4). -/
def load_binop_table {ε : Type} (fail : BinCol → Nat → Nat → Option ε) :
    Option (Except ε (List CellWrite)) :=
  (generate_binop_table? 4).map (fun precomputed_binop =>
    BinaryOperationTable.load fail precomputed_binop)

/-- The write sequence `load` performs when nothing fails: row `i`
written at offset `i` into the four columns, `tag` then `lhs` then `rhs`
then `res`. -/
def expectedWrites (offset : Nat) : List BinRow → List CellWrite
  | [] => []
  | v :: rest =>
    ((.tag, offset), v.tag) :: ((.lhs, offset), v.lhs) ::
      ((.rhs, offset), v.rhs) :: ((.res, offset), v.res) ::
      expectedWrites (offset + 1) rest

/-- Straight-line replay of a write list against the oracle, used to state
what `load` does: stop at the first failing write, otherwise append. -/
def runWrites {ε : Type} (fail : BinCol → Nat → Nat → Option ε) :
    List CellWrite → List CellWrite → Except ε (List CellWrite)
  | st, [] => .ok st
  | st, ((c, off), v) :: ws =>
    match fail c off v with
    | some e => .error e
    | none => runWrites fail (st ++ [((c, off), v)]) ws

/-! ### Bridging the checked generator and its pure value -/

theorem optMap_some_inv {α β : Type} (f : α → Option β) (g : α → β) :
    ∀ (l : List α) (t : List β), (∀ a ∈ l, ∀ b, f a = some b → b = g a) →
      optMap f l = some t → t = l.map g := by
  intro l
  induction l with
  | nil =>
    intro t _ h
    simp only [optMap] at h
    simp [← Option.some.inj h]
  | cons a as ih =>
    intro t hfg h
    cases hfa : f a with
    | none => simp [optMap, hfa] at h
    | some b =>
      cases hrest : optMap f as with
      | none => simp [optMap, hfa, hrest] at h
      | some bs =>
        simp only [optMap, hfa, hrest] at h
        have hb : b = g a := hfg a (List.mem_cons_self a as) b hfa
        have hbs : bs = as.map g :=
          ih bs (fun x hx => hfg x (List.mem_cons_of_mem a hx)) hrest
        simp [← Option.some.inj h, hb, hbs]

theorem optFlatMap_some_inv {α β : Type} (f : α → Option (List β)) (g : α → List β) :
    ∀ (l : List α) (t : List β), (∀ a ∈ l, ∀ b, f a = some b → b = g a) →
      optFlatMap f l = some t → t = l.flatMap g := by
  intro l
  induction l with
  | nil =>
    intro t _ h
    simp only [optFlatMap] at h
    simp [← Option.some.inj h]
  | cons a as ih =>
    intro t hfg h
    cases hfa : f a with
    | none => simp [optFlatMap, hfa] at h
    | some b =>
      cases hrest : optFlatMap f as with
      | none => simp [optFlatMap, hfa, hrest] at h
      | some bs =>
        simp only [optFlatMap, hfa, hrest] at h
        have hb : b = g a := hfg a (List.mem_cons_self a as) b hfa
        have hbs : bs = as.flatMap g :=
          ih bs (fun x hx => hfg x (List.mem_cons_of_mem a hx)) hrest
        simp [← Option.some.inj h, hb, hbs]

theorem optMap_eq_map {α β : Type} (f : α → Option β) (g : α → β) :
    ∀ l : List α, (∀ a ∈ l, f a = some (g a)) → optMap f l = some (l.map g) := by
  intro l
  induction l with
  | nil => intro _; rfl
  | cons a as ih =>
    intro hfg
    have ha := hfg a (List.mem_cons_self a as)
    have has := ih (fun x hx => hfg x (List.mem_cons_of_mem a hx))
    simp [optMap, ha, has]

theorem optFlatMap_eq_flatMap {α β : Type} (f : α → Option (List β)) (g : α → List β) :
    ∀ l : List α, (∀ a ∈ l, f a = some (g a)) → optFlatMap f l = some (l.flatMap g) := by
  intro l
  induction l with
  | nil => intro _; rfl
  | cons a as ih =>
    intro hfg
    have ha := hfg a (List.mem_cons_self a as)
    have has := ih (fun x hx => hfg x (List.mem_cons_of_mem a hx))
    simp [optFlatMap, ha, has]

theorem binOpResult?_eq_some (op : BinOpTag) (x y r : Nat)
    (h : binOpResult? op x y = some r) : r = binOpResult op x y := by
  cases op <;>
    simp only [binOpResult?, binOpResult, u8Add?, u8Mul?] at h ⊢ <;>
    first
      | exact (Option.some.inj h).symm
      | (split at h
         · exact (Option.some.inj h).symm
         · exact absurd h (by simp))

theorem binOpResult?_eq (op : BinOpTag) (x y : Nat)
    (hadd : x + y < 256) (hmul : x * y < 256) :
    binOpResult? op x y = some (binOpResult op x y) := by
  cases op <;> simp [binOpResult?, binOpResult, u8Add?, u8Mul?, hadd, hmul]

theorem u8Shl?_one_eq (range r : Nat) (h : u8Shl? 1 range = some r) :
    range < 8 ∧ r = 2 ^ range := by
  unfold u8Shl? at h
  split at h
  · rename_i hlt
    refine ⟨hlt, ?_⟩
    have h2 : (1 <<< range) = 2 ^ range := by rw [Nat.shiftLeft_eq, one_mul]
    have h3 : 2 ^ range < 256 := by
      calc 2 ^ range ≤ 2 ^ 7 := Nat.pow_le_pow_right (by norm_num) (by omega)
      _ < 256 := by norm_num
    have h4 := Option.some.inj h
    rw [h2, Nat.mod_eq_of_lt h3] at h4
    exact h4.symm
  · exact absurd h (by simp)

/-- A completing run of `generate_binop_table` returns exactly the pure
row list `binopTableVal`. -/
theorem generate_some_eq (range : Nat) (t : List BinRow)
    (h : generate_binop_table? range = some t) :
    range < 8 ∧ t = binopTableVal range := by
  unfold generate_binop_table? at h
  cases hr : u8Shl? 1 range with
  | none => rw [hr] at h; exact absurd h (by simp)
  | some r =>
    rw [hr] at h
    obtain ⟨h8, hr2⟩ := u8Shl?_one_eq range r hr
    subst hr2
    refine ⟨h8, ?_⟩
    unfold binopTableVal
    refine optFlatMap_some_inv _ _ _ _ ?_ h
    intro x _ bx hbx
    refine optFlatMap_some_inv _ _ _ _ ?_ hbx
    intro y _ by' hby
    refine optMap_some_inv _ _ _ _ ?_ hby
    intro op _ row hrow
    rcases Option.map_eq_some'.mp hrow with ⟨res, hres, hmk⟩
    rw [← hmk, binOpResult?_eq_some op x y res hres]

/-- When every operand pair in range keeps `x + y` and `x * y` within
`u8`, the generator completes and returns the pure row list. -/
theorem generate_completes (range : Nat) (hrange : range < 8)
    (hbound : ∀ x < 2 ^ range, ∀ y < 2 ^ range, x + y < 256 ∧ x * y < 256) :
    generate_binop_table? range = some (binopTableVal range) := by
  have hshl : u8Shl? 1 range = some (2 ^ range) := by
    unfold u8Shl?
    rw [if_pos hrange]
    have h2 : (1 <<< range) = 2 ^ range := by rw [Nat.shiftLeft_eq, one_mul]
    have h3 : 2 ^ range < 256 := by
      calc 2 ^ range ≤ 2 ^ 7 := Nat.pow_le_pow_right (by norm_num) (by omega)
      _ < 256 := by norm_num
    rw [h2, Nat.mod_eq_of_lt h3]
  unfold generate_binop_table? binopTableVal
  rw [hshl]
  refine optFlatMap_eq_flatMap _ _ _ ?_
  intro x hx
  refine optFlatMap_eq_flatMap _ _ _ ?_
  intro y hy
  refine optMap_eq_map _ _ _ ?_
  intro op _
  obtain ⟨hadd, hmul⟩ :=
    hbound x (List.mem_range.mp hx) y (List.mem_range.mp hy)
  rw [binOpResult?_eq op x y hadd hmul, Option.map_some']

/-- Range 4, the range `load_binop_table` hardcodes, completes. -/
theorem generate_range4 : generate_binop_table? 4 = some (binopTableVal 4) := by
  refine generate_completes 4 (by norm_num) ?_
  intro x hx y hy
  norm_num at hx hy
  constructor
  · omega
  · have := Nat.mul_le_mul (Nat.le_of_lt_succ hx) (Nat.le_of_lt_succ hy)
    omega

/-! ### Structure of the generated row list -/

theorem BinOpTag.code_injective (a b : BinOpTag) (h : a.code = b.code) : a = b := by
  revert h
  cases a <;> cases b <;> decide

theorem mem_binOpTags (op : BinOpTag) : op ∈ binOpTags := by
  cases op <;> decide

theorem mem_binopTableVal (range : Nat) (row : BinRow) :
    row ∈ binopTableVal range ↔
      ∃ x, x < 2 ^ range ∧ ∃ y, y < 2 ^ range ∧ ∃ op : BinOpTag,
        row = ⟨op.code, x, y, binOpResult op x y⟩ := by
  unfold binopTableVal
  constructor
  · intro h
    rcases List.mem_flatMap.mp h with ⟨x, hx, h⟩
    rcases List.mem_flatMap.mp h with ⟨y, hy, h⟩
    rcases List.mem_map.mp h with ⟨op, _, h⟩
    exact ⟨x, List.mem_range.mp hx, y, List.mem_range.mp hy, op, h.symm⟩
  · rintro ⟨x, hx, y, hy, op, rfl⟩
    refine List.mem_flatMap.mpr ⟨x, List.mem_range.mpr hx, ?_⟩
    refine List.mem_flatMap.mpr ⟨y, List.mem_range.mpr hy, ?_⟩
    exact List.mem_map.mpr ⟨op, mem_binOpTags op, rfl⟩

theorem length_flatMap_const {α β : Type} (f : α → List β) (k : Nat) :
    ∀ l : List α, (∀ a ∈ l, (f a).length = k) → (l.flatMap f).length = l.length * k := by
  intro l
  induction l with
  | nil => intro _; simp
  | cons a as ih =>
    intro h
    rw [List.flatMap_cons, List.length_append, h a (List.mem_cons_self a as),
      ih (fun x hx => h x (List.mem_cons_of_mem a hx)), List.length_cons]
    ring

theorem length_binopTableVal (range : Nat) :
    (binopTableVal range).length = (2 ^ range) ^ 2 * 15 := by
  unfold binopTableVal
  rw [length_flatMap_const _ (2 ^ range * 15)]
  · rw [List.length_range]; ring
  · intro x _
    rw [length_flatMap_const _ 15]
    · rw [List.length_range]
    · intro y _
      simp [binOpTags]

theorem countP_flatMap_zero {α β : Type} (p : β → Bool) (f : α → List β) :
    ∀ l : List α, (∀ a ∈ l, (f a).countP p = 0) → (l.flatMap f).countP p = 0 := by
  intro l
  induction l with
  | nil => intro _; simp
  | cons a as ih =>
    intro h
    rw [List.flatMap_cons, List.countP_append, h a (List.mem_cons_self a as),
      ih (fun x hx => h x (List.mem_cons_of_mem a hx))]

theorem countP_flatMap_range_one (p : BinRow → Bool) (f : Nat → List BinRow) :
    ∀ r x : Nat, x < r → (f x).countP p = 1 →
      (∀ i, i < r → i ≠ x → (f i).countP p = 0) →
      ((List.range r).flatMap f).countP p = 1 := by
  intro r
  induction r with
  | zero => intro x hx _ _; exact absurd hx (Nat.not_lt_zero x)
  | succ n ih =>
    intro x hx hone hzero
    rw [List.range_succ, List.flatMap_append, List.countP_append]
    rcases Nat.lt_or_ge x n with hlt | hge
    · rw [ih x hlt hone (fun i hi hne => hzero i (by omega) hne)]
      have hn : (f n).countP p = 0 := hzero n (by omega) (by omega)
      simp [hn]
    · have hxn : n = x := by omega
      have hleft : ((List.range n).flatMap f).countP p = 0 := by
        refine countP_flatMap_zero p f (List.range n) ?_
        intro i hi
        have hin := List.mem_range.mp hi
        exact hzero i (by omega) (by omega)
      rw [hxn] at hleft
      simp [hxn, hleft, hone]

theorem getElem?_flatMap_range {β : Type} (f : Nat → List β) (k : Nat)
    (hk : ∀ i, (f i).length = k) :
    ∀ (r x j : Nat), x < r → j < k →
      ((List.range r).flatMap f)[x * k + j]? = (f x)[j]? := by
  intro r
  induction r with
  | zero => intro x j hx _; exact absurd hx (Nat.not_lt_zero x)
  | succ n ih =>
    intro x j hx hj
    rw [List.range_succ, List.flatMap_append]
    have hlen : ((List.range n).flatMap f).length = n * k :=
      (length_flatMap_const f k _ (fun a _ => hk a)).trans (by rw [List.length_range])
    rcases Nat.lt_or_ge x n with hlt | hge
    · rw [List.getElem?_append_left]
      · exact ih x j hlt hj
      · rw [hlen]
        calc x * k + j < x * k + k := by omega
        _ = (x + 1) * k := by ring
        _ ≤ n * k := Nat.mul_le_mul_right k (by omega)
    · have hxn : x = n := by omega
      subst hxn
      rw [List.getElem?_append_right]
      · rw [hlen]
        have hidx : x * k + j - x * k = j := by omega
        rw [hidx]
        simp
      · omega

/-! ### Behaviour of `BinaryOperationTable::load` -/

theorem loadRows_eq_runWrites {ε : Type} (fail : BinCol → Nat → Nat → Option ε) :
    ∀ (rows : List BinRow) (st : List CellWrite) (off : Nat),
      loadRows fail st off rows = runWrites fail st (expectedWrites off rows) := by
  intro rows
  induction rows with
  | nil => intro st off; rfl
  | cons v rest ih =>
    intro st off
    simp only [loadRows, expectedWrites, runWrites, assignFixed]
    cases h1 : fail BinCol.tag off v.tag with
    | some e => rfl
    | none =>
      simp only [runWrites]
      cases h2 : fail BinCol.lhs off v.lhs with
      | some e => rfl
      | none =>
        simp only [runWrites]
        cases h3 : fail BinCol.rhs off v.rhs with
        | some e => rfl
        | none =>
          simp only [runWrites]
          cases h4 : fail BinCol.res off v.res with
          | some e => rfl
          | none => exact ih _ _

theorem runWrites_ok_inv {ε : Type} (fail : BinCol → Nat → Nat → Option ε) :
    ∀ (ws st st' : List CellWrite), runWrites fail st ws = .ok st' →
      st' = st ++ ws ∧ ∀ w ∈ ws, fail w.1.1 w.1.2 w.2 = none := by
  intro ws
  induction ws with
  | nil =>
    intro st st' h
    simp only [runWrites] at h
    simp [← Except.ok.inj h]
  | cons w ws ih =>
    obtain ⟨⟨c, off⟩, v⟩ := w
    intro st st' h
    simp only [runWrites] at h
    cases h1 : fail c off v with
    | some e => rw [h1] at h; exact absurd h (by simp)
    | none =>
      rw [h1] at h
      obtain ⟨hst, hall⟩ := ih _ _ h
      constructor
      · rw [hst]; simp
      · intro w' hw'
        rcases List.mem_cons.mp hw' with hw' | hw'
        · rw [hw']; exact h1
        · exact hall w' hw'

theorem runWrites_all_none {ε : Type} (fail : BinCol → Nat → Nat → Option ε) :
    ∀ (ws st : List CellWrite), (∀ w ∈ ws, fail w.1.1 w.1.2 w.2 = none) →
      runWrites fail st ws = .ok (st ++ ws) := by
  intro ws
  induction ws with
  | nil => intro st _; simp [runWrites]
  | cons w ws ih =>
    obtain ⟨⟨c, off⟩, v⟩ := w
    intro st hall
    have h1 : fail c off v = none := hall _ (List.mem_cons_self _ _)
    simp only [runWrites, h1]
    rw [ih _ (fun w' hw' => hall w' (List.mem_cons_of_mem _ hw'))]
    simp

theorem runWrites_first_error {ε : Type} (fail : BinCol → Nat → Nat → Option ε) :
    ∀ (ws st : List CellWrite) (k : Nat) (c : BinCol) (off v : Nat) (e : ε),
      ws[k]? = some ((c, off), v) → fail c off v = some e →
      (∀ j c' off' v', j < k → ws[j]? = some ((c', off'), v') →
        fail c' off' v' = none) →
      runWrites fail st ws = .error e := by
  intro ws
  induction ws with
  | nil => intro st k c off v e hk; simp at hk
  | cons w ws ih =>
    obtain ⟨⟨c0, off0⟩, v0⟩ := w
    intro st k c off v e hk hfail hprior
    cases k with
    | zero =>
      simp only [List.getElem?_cons_zero, Option.some.injEq, Prod.mk.injEq] at hk
      obtain ⟨⟨hc, hoff⟩, hv⟩ := hk
      subst hc; subst hoff; subst hv
      simp only [runWrites, hfail]
    | succ k =>
      have h0 : fail c0 off0 v0 = none :=
        hprior 0 c0 off0 v0 (Nat.succ_pos k) (by simp)
      simp only [runWrites, h0]
      exact ih _ k c off v e (by simpa using hk) hfail
        (fun j c' off' v' hj hja =>
          hprior (j + 1) c' off' v' (by omega) (by simpa using hja))

/-! ### Shared membership helpers -/

theorem row_mem_binopTableVal (range : Nat) (op : BinOpTag) (x y : Nat)
    (hx : x < 2 ^ range) (hy : y < 2 ^ range) :
    (⟨op.code, x, y, binOpResult op x y⟩ : BinRow) ∈ binopTableVal range :=
  (mem_binopTableVal range _).mpr ⟨x, hx, y, hy, op, rfl⟩

theorem res_of_mem (range : Nat) (row : BinRow) (h : row ∈ binopTableVal range)
    (op : BinOpTag) (htag : row.tag = op.code) :
    row.res = binOpResult op row.lhs row.rhs := by
  rcases (mem_binopTableVal range row).mp h with ⟨x, hx, y, hy, op', rfl⟩
  have hop : op' = op := BinOpTag.code_injective op' op htag
  subst hop
  rfl

theorem length_tagBlock (x y : Nat) :
    (binOpTags.map (fun op => (⟨op.code, x, y, binOpResult op x y⟩ : BinRow))).length
      = 15 := by
  simp [binOpTags]

theorem length_yBlock (range x : Nat) :
    ((List.range (2 ^ range)).flatMap (fun y =>
      binOpTags.map (fun op => (⟨op.code, x, y, binOpResult op x y⟩ : BinRow)))).length
      = 2 ^ range * 15 := by
  rw [length_flatMap_const _ 15 _ (fun y _ => length_tagBlock x y), List.length_range]

/-! ### The claims -/

/-- C6: the binary tag codes are exactly ADD=1, MUL=2, SUB=3, DIV=4,
MOD=5, LT=6, GT=7, LE=8, GE=9, SHL=10, SHR=11, AND=12, XOR=13, OR=14,
EQ=15 (in declaration order) and the unary tag codes are exactly PLUS=1,
MINUS=2, NEG=3; each tag's expression conversion equals its integer code;
both code maps are injective; and no tag has code 0. -/
theorem C6_tag_codes :
    binOpTags.map BinOpTag.code = [1, 2, 3, 4, 5, 6, 7, 8, 9, 10, 11, 12, 13, 14, 15] ∧
    UnaryOpTag.PLUS.code = 1 ∧ UnaryOpTag.MINUS.code = 2 ∧ UnaryOpTag.NEG.code = 3 ∧
    (∀ t : BinOpTag, t.exprValue = t.code) ∧
    (∀ t : UnaryOpTag, t.exprValue = t.code) ∧
    (∀ a b : BinOpTag, a.code = b.code → a = b) ∧
    (∀ a b : UnaryOpTag, a.code = b.code → a = b) ∧
    (∀ t : BinOpTag, t.code ≠ 0) ∧ (∀ t : UnaryOpTag, t.code ≠ 0) := by
  decide

/-- C1 fails on the code: at range 1 the generation completes, yet the SHL
row for `x = 1, y = 1` carries result 0 rather than `1 <<< 1 = 2`, and the
SHR row for `x = 1, y = 0` carries result 0 rather than `1 >>> 0 = 1`: the
`SHL`/`SHR` match arms are commented out in `generate_binop_table` and the
catch-all arm yields 0. -/
theorem C1_shift_counterexample :
    generate_binop_table? 1 = some (binopTableVal 1) ∧
    (⟨BinOpTag.SHL.code, 1, 1, 1 <<< 1⟩ : BinRow) ∉ binopTableVal 1 ∧
    (⟨BinOpTag.SHR.code, 1, 0, 1 >>> 0⟩ : BinRow) ∉ binopTableVal 1 ∧
    (⟨BinOpTag.SHL.code, 1, 1, 0⟩ : BinRow) ∈ binopTableVal 1 ∧
    (⟨BinOpTag.SHR.code, 1, 0, 0⟩ : BinRow) ∈ binopTableVal 1 := by
  decide

/-- C1 (amended): for every range for which generation completes, the
table contains rows for tags SHL and SHR for every operand pair, but their
result field is always 0 — not the shifted value — because the shift
match arms are commented out and those tags fall into the default arm. -/
theorem C1_shift_rows_zero (range : Nat) (t : List BinRow)
    (h : generate_binop_table? range = some t) :
    (∀ x, x < 2 ^ range → ∀ y, y < 2 ^ range →
      (⟨BinOpTag.SHL.code, x, y, 0⟩ : BinRow) ∈ t ∧
      (⟨BinOpTag.SHR.code, x, y, 0⟩ : BinRow) ∈ t) ∧
    (∀ row ∈ t, (row.tag = BinOpTag.SHL.code ∨ row.tag = BinOpTag.SHR.code) →
      row.res = 0) := by
  obtain ⟨-, rfl⟩ := generate_some_eq range t h
  constructor
  · intro x hx y hy
    exact ⟨row_mem_binopTableVal range .SHL x y hx hy,
      row_mem_binopTableVal range .SHR x y hx hy⟩
  · intro row hrow htag
    rcases htag with htag | htag
    · exact res_of_mem range row hrow .SHL htag
    · exact res_of_mem range row hrow .SHR htag

/-- Witness for the amended C1 at range 1, `x = 1, y = 1`. -/
theorem C1_shift_rows_zero_witness :
    (⟨BinOpTag.SHL.code, 1, 1, 0⟩ : BinRow) ∈ binopTableVal 1 :=
  ((C1_shift_rows_zero 1 (binopTableVal 1) (by decide)).1 1 (by decide) 1 (by decide)).1

/-- C2: for every range for which generation completes, every binary tag
and every operand pair in `[0, 2^range)` has exactly one row keyed
`(code(tag), x, y)` in the generated row sequence. -/
theorem C2_exactly_one_row (range : Nat) (t : List BinRow)
    (h : generate_binop_table? range = some t) (tag : BinOpTag) (x y : Nat)
    (hx : x < 2 ^ range) (hy : y < 2 ^ range) :
    t.countP (fun row => row.tag == tag.code && row.lhs == x && row.rhs == y) = 1 := by
  obtain ⟨-, rfl⟩ := generate_some_eq range t h
  unfold binopTableVal
  refine countP_flatMap_range_one _ _ _ x hx ?_ ?_
  · refine countP_flatMap_range_one _ _ _ y hy ?_ ?_
    · rw [List.countP_map]
      have hcomp : ((fun row : BinRow =>
            row.tag == tag.code && row.lhs == x && row.rhs == y) ∘
          fun op : BinOpTag => (⟨op.code, x, y, binOpResult op x y⟩ : BinRow)) =
          fun op : BinOpTag => op.code == tag.code := by
        funext op
        simp [Function.comp]
      rw [hcomp]
      cases tag <;> decide
    · intro i _ hne
      refine List.countP_eq_zero.mpr ?_
      intro row hrow
      rcases List.mem_map.mp hrow with ⟨op, _, rfl⟩
      simp [hne]
  · intro i _ hne
    refine countP_flatMap_zero _ _ _ ?_
    intro yy _
    refine List.countP_eq_zero.mpr ?_
    intro row hrow
    rcases List.mem_map.mp hrow with ⟨op, _, rfl⟩
    simp [hne]

/-- Witness for C2 at range 1, tag ADD, `x = 0, y = 1`. -/
theorem C2_exactly_one_row_witness :
    (binopTableVal 1).countP
      (fun row => row.tag == BinOpTag.ADD.code && row.lhs == 0 && row.rhs == 1) = 1 :=
  C2_exactly_one_row 1 (binopTableVal 1) (by decide) .ADD 0 1 (by decide) (by decide)

/-- C3: for every range for which generation completes, the rows for ADD,
MUL, AND, XOR, OR carry `x + y`, `x * y`, `x &&& y`, `x ^^^ y`, `x ||| y`,
and the rows for LT, GT, LE, GE, EQ carry 1 when the comparison holds and
0 otherwise; conversely every generated row with one of those tags carries
exactly that function of its own operands. -/
theorem C3_plain_op_rows (range : Nat) (t : List BinRow)
    (h : generate_binop_table? range = some t) :
    (∀ x, x < 2 ^ range → ∀ y, y < 2 ^ range →
      (⟨BinOpTag.ADD.code, x, y, x + y⟩ : BinRow) ∈ t ∧
      (⟨BinOpTag.MUL.code, x, y, x * y⟩ : BinRow) ∈ t ∧
      (⟨BinOpTag.AND.code, x, y, Nat.land x y⟩ : BinRow) ∈ t ∧
      (⟨BinOpTag.XOR.code, x, y, Nat.xor x y⟩ : BinRow) ∈ t ∧
      (⟨BinOpTag.OR.code, x, y, Nat.lor x y⟩ : BinRow) ∈ t ∧
      (⟨BinOpTag.LT.code, x, y, if x < y then 1 else 0⟩ : BinRow) ∈ t ∧
      (⟨BinOpTag.GT.code, x, y, if y < x then 1 else 0⟩ : BinRow) ∈ t ∧
      (⟨BinOpTag.LE.code, x, y, if x ≤ y then 1 else 0⟩ : BinRow) ∈ t ∧
      (⟨BinOpTag.GE.code, x, y, if y ≤ x then 1 else 0⟩ : BinRow) ∈ t ∧
      (⟨BinOpTag.EQ.code, x, y, if x = y then 1 else 0⟩ : BinRow) ∈ t) ∧
    (∀ row ∈ t,
      (row.tag = BinOpTag.ADD.code → row.res = row.lhs + row.rhs) ∧
      (row.tag = BinOpTag.MUL.code → row.res = row.lhs * row.rhs) ∧
      (row.tag = BinOpTag.AND.code → row.res = Nat.land row.lhs row.rhs) ∧
      (row.tag = BinOpTag.XOR.code → row.res = Nat.xor row.lhs row.rhs) ∧
      (row.tag = BinOpTag.OR.code → row.res = Nat.lor row.lhs row.rhs) ∧
      (row.tag = BinOpTag.LT.code →
        row.res = if row.lhs < row.rhs then 1 else 0) ∧
      (row.tag = BinOpTag.GT.code →
        row.res = if row.rhs < row.lhs then 1 else 0) ∧
      (row.tag = BinOpTag.LE.code →
        row.res = if row.lhs ≤ row.rhs then 1 else 0) ∧
      (row.tag = BinOpTag.GE.code →
        row.res = if row.rhs ≤ row.lhs then 1 else 0) ∧
      (row.tag = BinOpTag.EQ.code →
        row.res = if row.lhs = row.rhs then 1 else 0)) := by
  obtain ⟨-, rfl⟩ := generate_some_eq range t h
  constructor
  · intro x hx y hy
    exact ⟨row_mem_binopTableVal range .ADD x y hx hy,
      row_mem_binopTableVal range .MUL x y hx hy,
      row_mem_binopTableVal range .AND x y hx hy,
      row_mem_binopTableVal range .XOR x y hx hy,
      row_mem_binopTableVal range .OR x y hx hy,
      row_mem_binopTableVal range .LT x y hx hy,
      row_mem_binopTableVal range .GT x y hx hy,
      row_mem_binopTableVal range .LE x y hx hy,
      row_mem_binopTableVal range .GE x y hx hy,
      row_mem_binopTableVal range .EQ x y hx hy⟩
  · intro row hrow
    exact ⟨fun htag => res_of_mem range row hrow .ADD htag,
      fun htag => res_of_mem range row hrow .MUL htag,
      fun htag => res_of_mem range row hrow .AND htag,
      fun htag => res_of_mem range row hrow .XOR htag,
      fun htag => res_of_mem range row hrow .OR htag,
      fun htag => res_of_mem range row hrow .LT htag,
      fun htag => res_of_mem range row hrow .GT htag,
      fun htag => res_of_mem range row hrow .LE htag,
      fun htag => res_of_mem range row hrow .GE htag,
      fun htag => res_of_mem range row hrow .EQ htag⟩

/-- Witness for C3 at range 1: the ADD row `(1, 1, 1, 2)` is generated. -/
theorem C3_plain_op_rows_witness :
    (⟨BinOpTag.ADD.code, 1, 1, 2⟩ : BinRow) ∈ binopTableVal 1 :=
  ((C3_plain_op_rows 1 (binopTableVal 1) (by decide)).1 1 (by decide) 1 (by decide)).1

/-- C4: for every range for which generation completes, SUB rows saturate
at 0, DIV and MOD rows are the truncated quotient and remainder with the
`y = 0` case defined as 0 (never failing); conversely every generated row
with one of those tags carries exactly that function of its operands. -/
theorem C4_sub_div_mod_rows (range : Nat) (t : List BinRow)
    (h : generate_binop_table? range = some t) :
    (∀ x, x < 2 ^ range → ∀ y, y < 2 ^ range →
      (⟨BinOpTag.SUB.code, x, y, if y ≤ x then x - y else 0⟩ : BinRow) ∈ t ∧
      (⟨BinOpTag.DIV.code, x, y, if y ≠ 0 then x / y else 0⟩ : BinRow) ∈ t ∧
      (⟨BinOpTag.MOD.code, x, y, if y ≠ 0 then x % y else 0⟩ : BinRow) ∈ t) ∧
    (∀ x, x < 2 ^ range →
      (⟨BinOpTag.DIV.code, x, 0, 0⟩ : BinRow) ∈ t ∧
      (⟨BinOpTag.MOD.code, x, 0, 0⟩ : BinRow) ∈ t) ∧
    (∀ row ∈ t,
      (row.tag = BinOpTag.SUB.code →
        row.res = if row.rhs ≤ row.lhs then row.lhs - row.rhs else 0) ∧
      (row.tag = BinOpTag.DIV.code →
        row.res = if row.rhs ≠ 0 then row.lhs / row.rhs else 0) ∧
      (row.tag = BinOpTag.MOD.code →
        row.res = if row.rhs ≠ 0 then row.lhs % row.rhs else 0)) := by
  obtain ⟨-, rfl⟩ := generate_some_eq range t h
  have hzero : (0 : Nat) < 2 ^ range := by positivity
  refine ⟨?_, ?_, ?_⟩
  · intro x hx y hy
    exact ⟨row_mem_binopTableVal range .SUB x y hx hy,
      row_mem_binopTableVal range .DIV x y hx hy,
      row_mem_binopTableVal range .MOD x y hx hy⟩
  · intro x hx
    exact ⟨row_mem_binopTableVal range .DIV x 0 hx hzero,
      row_mem_binopTableVal range .MOD x 0 hx hzero⟩
  · intro row hrow
    exact ⟨fun htag => res_of_mem range row hrow .SUB htag,
      fun htag => res_of_mem range row hrow .DIV htag,
      fun htag => res_of_mem range row hrow .MOD htag⟩

/-- Witness for C4 at range 1: the saturating SUB row `(3, 0, 1, 0)` and
the division-by-zero DIV row `(4, 1, 0, 0)` are generated. -/
theorem C4_sub_div_mod_rows_witness :
    (⟨BinOpTag.SUB.code, 0, 1, 0⟩ : BinRow) ∈ binopTableVal 1 ∧
    (⟨BinOpTag.DIV.code, 1, 0, 0⟩ : BinRow) ∈ binopTableVal 1 :=
  ⟨((C4_sub_div_mod_rows 1 (binopTableVal 1) (by decide)).1 0
      (by decide) 1 (by decide)).1,
    ((C4_sub_div_mod_rows 1 (binopTableVal 1) (by decide)).2.1 1 (by decide)).1⟩

/-- C5: for every range for which generation completes, the table has
`(2^range)^2 * 15` rows; range 0 yields 15 rows, all with operands 0. -/
theorem C5_table_size (range : Nat) (t : List BinRow)
    (h : generate_binop_table? range = some t) :
    t.length = (2 ^ range) ^ 2 * 15 ∧
    (range = 0 → t.length = 15 ∧ ∀ row ∈ t, row.lhs = 0 ∧ row.rhs = 0) := by
  obtain ⟨-, rfl⟩ := generate_some_eq range t h
  refine ⟨length_binopTableVal range, ?_⟩
  rintro rfl
  refine ⟨by rw [length_binopTableVal]; norm_num, ?_⟩
  intro row hrow
  rcases (mem_binopTableVal 0 row).mp hrow with ⟨x, hx, y, hy, op, rfl⟩
  norm_num at hx hy
  exact ⟨by simpa using hx, by simpa using hy⟩

/-- Witness for C5 at range 1: 60 rows. -/
theorem C5_table_size_witness : (binopTableVal 1).length = 60 :=
  (C5_table_size 1 (binopTableVal 1) (by decide)).1

/-- C7: for every range for which generation completes, the row for
`(tag, x, y)` sits at index `(x * 2^range + y) * 15 + (code(tag) - 1)`:
outer loop over `x` ascending, middle over `y` ascending, inner over the
15 tags in declaration order. -/
theorem C7_row_order (range : Nat) (t : List BinRow)
    (h : generate_binop_table? range = some t) (tag : BinOpTag) (x y : Nat)
    (hx : x < 2 ^ range) (hy : y < 2 ^ range) :
    t[(x * 2 ^ range + y) * 15 + (tag.code - 1)]? =
      some ⟨tag.code, x, y, binOpResult tag x y⟩ := by
  obtain ⟨-, rfl⟩ := generate_some_eq range t h
  unfold binopTableVal
  have hc : tag.code - 1 < 15 := by cases tag <;> decide
  have hidx : (x * 2 ^ range + y) * 15 + (tag.code - 1) =
      x * (2 ^ range * 15) + (y * 15 + (tag.code - 1)) := by ring
  have hj : y * 15 + (tag.code - 1) < 2 ^ range * 15 := by
    calc y * 15 + (tag.code - 1) < y * 15 + 15 := by omega
    _ = (y + 1) * 15 := by ring
    _ ≤ 2 ^ range * 15 := Nat.mul_le_mul_right 15 (by omega)
  rw [hidx,
    getElem?_flatMap_range _ (2 ^ range * 15) (fun i => length_yBlock range i)
      (2 ^ range) x _ hx hj,
    getElem?_flatMap_range _ 15 (fun i => length_tagBlock x i)
      (2 ^ range) y _ hy hc]
  cases tag <;> rfl

/-- Witness for C7 at range 1: the SHL row of `x = 1, y = 0` sits at
index `(1 * 2 + 0) * 15 + 9 = 39`. -/
theorem C7_row_order_witness :
    (binopTableVal 1)[39]? = some ⟨10, 1, 0, 0⟩ :=
  C7_row_order 1 (binopTableVal 1) (by decide) .SHL 1 0 (by decide) (by decide)

/-- C9: `generate_binop_table` is abort-free for every range up to 4 (all
intermediate `u8` arithmetic stays below 256), and this bound does not
extend to range 5, where `x * y` overflows `u8`. -/
theorem C9_abort_free_up_to_range4 (range : Nat) (h : range ≤ 4) :
    (generate_binop_table? range).isSome = true ∧
    generate_binop_table? 5 = none := by
  constructor
  · have hbound : ∀ x < 2 ^ range, ∀ y < 2 ^ range, x + y < 256 ∧ x * y < 256 := by
      intro x hx y hy
      have h16 : 2 ^ range ≤ 16 := by
        calc 2 ^ range ≤ 2 ^ 4 := Nat.pow_le_pow_right (by norm_num) h
        _ = 16 := by norm_num
      have hx' : x ≤ 15 := by omega
      have hy' : y ≤ 15 := by omega
      have hmul := Nat.mul_le_mul hx' hy'
      exact ⟨by omega, by omega⟩
    rw [generate_completes range (by omega) hbound]
    rfl
  · decide

/-- Witness for C9 at range 4 (the range the circuit hardcodes). -/
theorem C9_abort_free_witness : (generate_binop_table? 4).isSome = true :=
  (C9_abort_free_up_to_range4 4 (by decide)).1

/-- C8: `BinaryOperationTable::load` writes row `i` — `(tag, lhs, rhs,
res)` — at row offset `i` of the four fixed columns for every `i`, in
order; the first failing column write's error is propagated immediately
with no retry and no further writes; and the load is `Ok` exactly when
every single column write of every row succeeds. -/
theorem C8_load_writes_and_errors {ε : Type} (fail : BinCol → Nat → Nat → Option ε)
    (precomputed : List BinRow) :
    (∀ st, BinaryOperationTable.load fail precomputed = .ok st →
      st = expectedWrites 0 precomputed) ∧
    ((∃ st, BinaryOperationTable.load fail precomputed = .ok st) ↔
      ∀ w ∈ expectedWrites 0 precomputed, fail w.1.1 w.1.2 w.2 = none) ∧
    (∀ (k : Nat) (c : BinCol) (off v : Nat) (e : ε),
      (expectedWrites 0 precomputed)[k]? = some ((c, off), v) →
      fail c off v = some e →
      (∀ (j : Nat) (c' : BinCol) (off' v' : Nat), j < k →
        (expectedWrites 0 precomputed)[j]? = some ((c', off'), v') →
        fail c' off' v' = none) →
      BinaryOperationTable.load fail precomputed = .error e) := by
  unfold BinaryOperationTable.load
  rw [loadRows_eq_runWrites]
  refine ⟨?_, ⟨?_, ?_⟩, ?_⟩
  · intro st h
    simpa using (runWrites_ok_inv fail _ _ _ h).1
  · rintro ⟨st, h⟩
    exact (runWrites_ok_inv fail _ _ _ h).2
  · intro hall
    exact ⟨_, runWrites_all_none fail _ [] hall⟩
  · intro k c off v e hk hfail hprior
    exact runWrites_first_error fail _ [] k c off v e hk hfail hprior

/-- C10: `load_binop_table` always loads the table generated with the
hardcoded range 4: the 3840-row table whose operands all lie in
`[0, 16)`, independent of any witness value. -/
theorem C10_hardcoded_range_four {ε : Type} (fail : BinCol → Nat → Nat → Option ε) :
    load_binop_table fail =
      some (BinaryOperationTable.load fail (binopTableVal 4)) ∧
    (binopTableVal 4).length = 3840 ∧
    (∀ row ∈ binopTableVal 4, row.lhs < 16 ∧ row.rhs < 16) := by
  refine ⟨?_, ?_, ?_⟩
  · unfold load_binop_table
    rw [generate_range4, Option.map_some']
  · rw [length_binopTableVal]; norm_num
  · intro row hrow
    rcases (mem_binopTableVal 4 row).mp hrow with ⟨x, hx, y, hy, op, rfl⟩
    norm_num at hx hy
    exact ⟨hx, hy⟩

end Lir
